import Mathlib

/-!
Verification of the dotenv-creator extension's core logic
(`src/extension.ts`), shallowly embedded over `List Char`.

The embedding covers:
* `processTemplateContent` — line-oriented template processing with
  placeholder classification and tab-stop emission;
* `findTemplateFiles` / `searchDirectory` — recursive template discovery
  over a directory-tree model;
* `checkGitignore` — ignore-file entry detection and append;
* `runCreateEnv` — the command flow of `activate`, modelled as a pure
  function from the user's choices to the performed file writes.
-/

/-- JavaScript `content.split('\n')`: splits on every newline, keeping
empty segments, so the result always has one more segment than there are
newlines (`"".split('\n') = [""]`). -/
def splitNl : List Char → List (List Char)
  | [] => [[]]
  | c :: rest =>
    if c = '\n' then [] :: splitNl rest
    else
      match splitNl rest with
      | [] => [[c]]
      | l :: ls => (c :: l) :: ls

/-- JavaScript `lines.join('\n')`. -/
def joinNl : List (List Char) → List Char
  | [] => []
  | [l] => l
  | l :: ls => l ++ '\n' :: joinNl ls

theorem splitNl_ne_nil (s : List Char) : splitNl s ≠ [] := by
  cases s with
  | nil => simp [splitNl]
  | cons c rest =>
    simp only [splitNl]
    split
    · simp
    · cases h : splitNl rest <;> simp

theorem joinNl_splitNl (s : List Char) : joinNl (splitNl s) = s := by
  induction s with
  | nil => rfl
  | cons c rest ih =>
    simp only [splitNl]
    split
    · rename_i hc
      subst hc
      cases h : splitNl rest with
      | nil => exact absurd h (splitNl_ne_nil rest)
      | cons l ls =>
        rw [h] at ih
        simp [joinNl, ih]
    · cases h : splitNl rest with
      | nil => exact absurd h (splitNl_ne_nil rest)
      | cons l ls =>
        rw [h] at ih
        cases ls with
        | nil => simpa [joinNl] using ih
        | cons l2 ls2 => simpa [joinNl] using ih

/-- `t` is a literal prefix of `v` (Boolean, structural recursion). -/
def leadsWith : List Char → List Char → Bool
  | [], _ => true
  | _ :: _, [] => false
  | a :: as, b :: bs => a == b && leadsWith as bs

/-- JavaScript `v.includes(t)`: `t` occurs as a contiguous substring of `v`. -/
def hasSub (t : List Char) : List Char → Bool
  | [] => t.isEmpty
  | c :: rest => leadsWith t (c :: rest) || hasSub t rest

theorem leadsWith_iff (t v : List Char) :
    leadsWith t v = true ↔ ∃ rest, v = t ++ rest := by
  induction t generalizing v with
  | nil => simp [leadsWith]
  | cons a as ih =>
    cases v with
    | nil => simp [leadsWith]
    | cons b bs =>
      simp only [leadsWith, Bool.and_eq_true, beq_iff_eq, ih, List.cons_append,
        List.cons.injEq]
      constructor
      · rintro ⟨hab, rest, hr⟩
        exact ⟨rest, hab.symm, hr⟩
      · rintro ⟨rest, hab, hr⟩
        exact ⟨hab.symm, rest, hr⟩

/-- `t` occurs in `v` exactly when `v` decomposes as `pre ++ t ++ post`. -/
theorem hasSub_iff (t v : List Char) :
    hasSub t v = true ↔ ∃ pre post, v = pre ++ (t ++ post) := by
  induction v with
  | nil =>
    simp only [hasSub, List.isEmpty_iff]
    constructor
    · rintro rfl
      exact ⟨[], [], rfl⟩
    · rintro ⟨pre, post, h⟩
      rcases List.append_eq_nil.mp h.symm with ⟨rfl, h2⟩
      exact (List.append_eq_nil.mp h2).1
  | cons c rest ih =>
    simp only [hasSub, Bool.or_eq_true, leadsWith_iff, ih]
    constructor
    · rintro (⟨r, hr⟩ | ⟨pre, post, hp⟩)
      · exact ⟨[], r, by simpa using hr⟩
      · exact ⟨c :: pre, post, by simp [hp]⟩
    · rintro ⟨pre, post, hp⟩
      cases pre with
      | nil => exact Or.inl ⟨post, by simpa using hp⟩
      | cons p ps =>
        simp only [List.cons_append, List.cons.injEq] at hp
        exact Or.inr ⟨ps, post, hp.2⟩

/-- The set recognized by JavaScript's `\s` regex class (and `String.trim`):
ASCII whitespace, NBSP, and the Unicode space separators. -/
def isJsSpace (c : Char) : Bool :=
  c == ' ' || c == '\t' || c == '\n' || c == '\r' ||
  c.val == 11 || c.val == 12 ||
  c.val == 0xA0 || c.val == 0x1680 ||
  (0x2000 ≤ c.val && c.val ≤ 0x200A) ||
  c.val == 0x2028 || c.val == 0x2029 || c.val == 0x202F ||
  c.val == 0x205F || c.val == 0x3000 || c.val == 0xFEFF

/-- First character of a key: `[A-Za-z_]`. -/
def isKeyStartChar (c : Char) : Bool :=
  ('A' ≤ c && c ≤ 'Z') || ('a' ≤ c && c ≤ 'z') || c == '_'

/-- Subsequent key characters: `[A-Za-z0-9_]`. -/
def isKeyChar (c : Char) : Bool :=
  isKeyStartChar c || ('0' ≤ c && c ≤ '9')

/-- A JavaScript line terminator: the characters `.` does not match
(`\n`, `\r`, U+2028, U+2029). -/
def isLineTerminator (c : Char) : Bool :=
  c == '\n' || c == '\r' || c.val == 0x2028 || c.val == 0x2029

/-- The regex match `line.match(/^([A-Za-z_][A-Za-z0-9_]*)\s*=\s*(.*)$/i)`
from `processTemplateContent`, returning the captured `(key, value)`.
The key run, the pre-`=` whitespace run and the required `=` are
deterministic: shortening a greedy run leaves a character of that same
class in a position where the pattern demands one of the other two
disjoint classes. After the `=`, `\s*` is greedy and `(.*)$` accepts a
remainder exactly when it is free of line terminators (`.` excludes
them and `$` anchors at the very end of the input, there being no `m`
flag); backtracking `\s*` to a shorter run cannot rescue a failure,
since every terminator of the maximal-run remainder also lies in the
longer remainder. So the whole line matches exactly when the remainder
after the maximal whitespace run is terminator-free — in particular a
line such as `KEY=value\r` from a CRLF template does not match and is
passed through unchanged. -/
def matchEnvVar (line : List Char) : Option (List Char × List Char) :=
  match line with
  | [] => none
  | c :: rest =>
    if isKeyStartChar c then
      match (rest.dropWhile isKeyChar).dropWhile isJsSpace with
      | '=' :: afterEq =>
        if (afterEq.dropWhile isJsSpace).any isLineTerminator then none
        else some (c :: rest.takeWhile isKeyChar, afterEq.dropWhile isJsSpace)
      | _ => none
    else none

/-- A single-quote character (U+0027). -/
def squote : Char := Char.ofNat 39

/-- The value `''` (two single quotes). -/
def emptySquotes : List Char := [squote, squote]

/-- The placeholder heuristic on a matched value, from
`processTemplateContent`: empty, empty-quoted, or containing one of ten
keyword substrings (case-sensitive per listed variant). -/
def isPlaceholderValue (value : List Char) : Bool :=
  value.isEmpty ||
  value == "\"\"".data ||
  value == emptySquotes ||
  hasSub "your-".data value ||
  hasSub "YOUR_".data value ||
  hasSub "example".data value ||
  hasSub "EXAMPLE".data value ||
  hasSub "placeholder".data value ||
  hasSub "PLACEHOLDER".data value ||
  hasSub "change-me".data value ||
  hasSub "CHANGE_ME".data value ||
  hasSub "xxx".data value ||
  hasSub "XXX".data value

/-- A line counts as a placeholder line when it matches the assignment
pattern and its value passes the placeholder heuristic. -/
def isPlaceholderLine (line : List Char) : Bool :=
  match matchEnvVar line with
  | some (_, value) => isPlaceholderValue value
  | none => false

/-- The snippet text `\x24\x7bIDX:VALUE\x7d` emitted for a placeholder
(`$` then `\x7b`, the decimal stop index, `:`, the original value, `\x7d`). -/
def tabStopAnnot (idx : Nat) (value : List Char) : List Char :=
  '$' :: '\x7b' :: (Nat.toDigits 10 idx ++ ':' :: (value ++ ['\x7d']))

/-- The record returned by `processTemplateContent`. -/
structure ProcessedTemplate where
  content : List Char
  snippetContent : List Char
  hasTabStops : Bool
  firstValuePosition : Option Nat

/-- The `for (const line of lines)` loop of `processTemplateContent`,
threading `tabStopIndex`, `currentPosition`, `hasTabStops` and
`firstValuePosition` exactly as the source does; returns the emitted
snippet lines together with the two final flags. -/
def processLinesAux (lines : List (List Char)) (tabStopIndex : Nat)
    (currentPosition : Nat) (hasTabStops : Bool)
    (firstValuePosition : Option Nat) :
    List (List Char) × Bool × Option Nat :=
  match lines with
  | [] => ([], hasTabStops, firstValuePosition)
  | line :: rest =>
    match matchEnvVar line with
    | some (key, value) =>
      if isPlaceholderValue value then
        let keyPart := key ++ ['=']
        let fvp := if hasTabStops then firstValuePosition
                   else some (currentPosition + keyPart.length)
        let r := processLinesAux rest (tabStopIndex + 1)
          (currentPosition + line.length + 1) true fvp
        ((keyPart ++ tabStopAnnot tabStopIndex value) :: r.1, r.2)
      else
        let r := processLinesAux rest tabStopIndex
          (currentPosition + line.length + 1) hasTabStops firstValuePosition
        (line :: r.1, r.2)
    | none =>
      let r := processLinesAux rest tabStopIndex
        (currentPosition + line.length + 1) hasTabStops firstValuePosition
      (line :: r.1, r.2)

/-- `processTemplateContent` from `src/extension.ts`: splits on newlines,
runs the processing loop, and returns the unmodified content, the joined
snippet text, and the two flags. -/
def processTemplateContent (content : List Char) : ProcessedTemplate :=
  let r := processLinesAux (splitNl content) 1 0 false none
  { content := content
    snippetContent := joinNl r.1
    hasTabStops := r.2.1
    firstValuePosition := r.2.2 }

/-- The ten keyword tokens of the placeholder heuristic, in source order. -/
def placeholderTokens : List (List Char) :=
  ["your-".data, "YOUR_".data, "example".data, "EXAMPLE".data,
   "placeholder".data, "PLACEHOLDER".data, "change-me".data,
   "CHANGE_ME".data, "xxx".data, "XXX".data]

/-- `t` occurs as a contiguous substring of `v` (specification-level form). -/
def SubstringOf (t v : List Char) : Prop :=
  ∃ pre post, v = pre ++ (t ++ post)

/-- Modelled from the spec: a value is a placeholder when it is empty,
equals an empty-quoted form, or contains one of the listed tokens as a
case-sensitive substring. -/
def SpecPlaceholder (v : List Char) : Prop :=
  v = [] ∨ v = "\"\"".data ∨ v = emptySquotes ∨
  ∃ t ∈ placeholderTokens, SubstringOf t v

/-- C1: for every input template text, the `content` field of the
`ProcessedTemplate` — the plain output written to the target `.env`
file — equals the input text byte-for-byte, including for empty input. -/
theorem plain_output_is_input (s : List Char) :
    (processTemplateContent s).content = s := rfl

/-- C2: for every line matching the assignment pattern, the value is
classified as a placeholder exactly when it is empty, equals `""` or
`''`, or contains one of the ten listed tokens as a case-sensitive
substring. -/
theorem placeholder_classification (line key value : List Char)
    (_hmatch : matchEnvVar line = some (key, value)) :
    isPlaceholderValue value = true ↔ SpecPlaceholder value := by
  simp only [isPlaceholderValue, SpecPlaceholder, placeholderTokens,
    SubstringOf, Bool.or_eq_true, beq_iff_eq, List.isEmpty_iff, hasSub_iff,
    List.mem_cons, List.not_mem_nil, or_false, exists_eq_or_imp,
    exists_eq_left, or_assoc]

/-- Witness for C2 at the claim's own examples: `API_KEY=your-key-here`
matches and classifies as a placeholder (and does so per the spec-side
predicate), `PORT=8080` does not, and `NAME=""` does. -/
theorem placeholder_classification_witness :
    SpecPlaceholder "your-key-here".data ∧
    isPlaceholderValue "8080".data = false ∧
    isPlaceholderValue "\"\"".data = true :=
  ⟨(placeholder_classification "API_KEY=your-key-here".data "API_KEY".data
      "your-key-here".data (by decide)).mp (by decide),
   by decide, by decide⟩

/-- Modelled from the spec: the per-line emission of the processor with
the running stop index made explicit — placeholder lines become
`KEY=` followed by a stop annotation wrapping the original value, all
other lines are emitted unchanged. -/
def annotate : List (List Char) → Nat → List (List Char)
  | [], _ => []
  | line :: rest, idx =>
    match matchEnvVar line with
    | some (key, value) =>
      if isPlaceholderValue value then
        (key ++ ['='] ++ tabStopAnnot idx value) :: annotate rest (idx + 1)
      else line :: annotate rest idx
    | none => line :: annotate rest idx

/-- Modelled from the spec: the stop indices handed out over a line list,
starting from `idx`, in file order. -/
def stopIndices : List (List Char) → Nat → List Nat
  | [], _ => []
  | line :: rest, idx =>
    if isPlaceholderLine line then idx :: stopIndices rest (idx + 1)
    else stopIndices rest idx

theorem processLinesAux_fst (lines : List (List Char)) (idx pos : Nat)
    (ht : Bool) (fvp : Option Nat) :
    (processLinesAux lines idx pos ht fvp).1 = annotate lines idx := by
  induction lines generalizing idx pos ht fvp with
  | nil => rfl
  | cons line rest ih =>
    simp only [processLinesAux, annotate]
    cases hm : matchEnvVar line with
    | none => simp [ih]
    | some kv =>
      obtain ⟨key, value⟩ := kv
      by_cases hv : isPlaceholderValue value = true
      · simp [hv, ih]
      · simp [Bool.not_eq_true] at hv
        simp [hv, ih]

theorem annotate_length (lines : List (List Char)) (idx : Nat) :
    (annotate lines idx).length = lines.length := by
  induction lines generalizing idx with
  | nil => rfl
  | cons line rest ih =>
    simp only [annotate]
    cases hm : matchEnvVar line with
    | none => simp [ih]
    | some kv =>
      obtain ⟨key, value⟩ := kv
      by_cases hv : isPlaceholderValue value = true
      · simp [hv, ih]
      · simp [Bool.not_eq_true] at hv
        simp [hv, ih]

theorem stopIndices_eq_range (lines : List (List Char)) (idx : Nat) :
    stopIndices lines idx = List.range' idx (lines.countP isPlaceholderLine) := by
  induction lines generalizing idx with
  | nil => rfl
  | cons line rest ih =>
    simp only [stopIndices, List.countP_cons]
    by_cases hp : isPlaceholderLine line = true
    · simp [hp, ih, List.range'_succ]
    · simp [Bool.not_eq_true] at hp
      simp [hp, ih]

theorem annotate_getElem_of_not_placeholder (lines : List (List Char))
    (idx i : Nat) (line : List Char) (hl : lines[i]? = some line)
    (hnp : isPlaceholderLine line = false) :
    (annotate lines idx)[i]? = some line := by
  induction lines generalizing idx i with
  | nil => simp at hl
  | cons hd rest ih =>
    cases i with
    | zero =>
      simp only [List.getElem?_cons_zero, Option.some.injEq] at hl
      subst hl
      simp only [isPlaceholderLine] at hnp
      simp only [annotate]
      cases hm : matchEnvVar hd with
      | none => simp
      | some kv =>
        obtain ⟨key, value⟩ := kv
        rw [hm] at hnp
        have hnp2 : isPlaceholderValue value = false := hnp
        simp [hnp2]
    | succ j =>
      simp only [List.getElem?_cons_succ] at hl
      simp only [annotate]
      cases hm : matchEnvVar hd with
      | none => simpa using ih idx j hl
      | some kv =>
        obtain ⟨key, value⟩ := kv
        by_cases hv : isPlaceholderValue value = true
        · simpa [hv] using ih (idx + 1) j hl
        · simp only [Bool.not_eq_true] at hv
          simpa [hv] using ih idx j hl

theorem annotate_getElem_of_placeholder (lines : List (List Char))
    (idx i : Nat) (line key value : List Char) (hl : lines[i]? = some line)
    (hm : matchEnvVar line = some (key, value))
    (hv : isPlaceholderValue value = true) :
    (annotate lines idx)[i]? =
      some (key ++ ['='] ++
        tabStopAnnot (idx + (lines.take i).countP isPlaceholderLine) value) := by
  induction lines generalizing idx i with
  | nil => simp at hl
  | cons hd rest ih =>
    cases i with
    | zero =>
      simp only [List.getElem?_cons_zero, Option.some.injEq] at hl
      subst hl
      simp [annotate, hm, hv]
    | succ j =>
      simp only [List.getElem?_cons_succ] at hl
      simp only [annotate, List.take_succ_cons, List.countP_cons]
      cases hm2 : matchEnvVar hd with
      | none =>
        have hph : isPlaceholderLine hd = false := by
          simp [isPlaceholderLine, hm2]
        simpa [hph] using ih idx j hl
      | some kv =>
        obtain ⟨key2, value2⟩ := kv
        by_cases hv2 : isPlaceholderValue value2 = true
        · have hph : isPlaceholderLine hd = true := by
            simp [isPlaceholderLine, hm2, hv2]
          have harith :
              idx + ((rest.take j).countP isPlaceholderLine + 1) =
                idx + 1 + (rest.take j).countP isPlaceholderLine := by omega
          simp only [hv2, if_true, List.getElem?_cons_succ, hph, harith]
          exact ih (idx + 1) j hl
        · simp only [Bool.not_eq_true] at hv2
          have hph : isPlaceholderLine hd = false := by
            simp [isPlaceholderLine, hm2, hv2]
          simpa [hv2, hph] using ih idx j hl

/-- C3: the snippet text is the newline-join of the per-line emissions;
there are as many emitted lines as input lines; the stop indices handed
out are exactly the contiguous run `1..N` in file order, where `N` is the
number of placeholder lines; every non-placeholder line is emitted
unchanged; and every placeholder line is emitted as its key, `=`, and a
stop annotation wrapping the original value, indexed by one plus the
number of placeholder lines preceding it. -/
theorem tab_stop_monotonicity (s : List Char) :
    (processTemplateContent s).snippetContent = joinNl (annotate (splitNl s) 1)
  ∧ (annotate (splitNl s) 1).length = (splitNl s).length
  ∧ stopIndices (splitNl s) 1 =
      List.range' 1 ((splitNl s).countP isPlaceholderLine)
  ∧ (∀ (i : Nat) (line : List Char), (splitNl s)[i]? = some line →
      isPlaceholderLine line = false →
      (annotate (splitNl s) 1)[i]? = some line)
  ∧ (∀ (i : Nat) (line key value : List Char), (splitNl s)[i]? = some line →
      matchEnvVar line = some (key, value) → isPlaceholderValue value = true →
      (annotate (splitNl s) 1)[i]? =
        some (key ++ ['='] ++
          tabStopAnnot (1 + ((splitNl s).take i).countP isPlaceholderLine)
            value)) := by
  refine ⟨?_, annotate_length _ _, stopIndices_eq_range _ _, ?_, ?_⟩
  · show joinNl (processLinesAux (splitNl s) 1 0 false none).1 = _
    rw [processLinesAux_fst]
  · intro i line hl hnp
    exact annotate_getElem_of_not_placeholder _ _ _ _ hl hnp
  · intro i line key value hl hm hv
    exact annotate_getElem_of_placeholder _ _ _ _ _ _ hl hm hv

/-- Witness for C3 on the spec's end-to-end example: of the three lines,
only `DB_PASSWORD=change-me` is a placeholder; it is emitted wrapping
`change-me` as stop 1 while `DB_HOST=localhost` is emitted unchanged. -/
theorem tab_stop_monotonicity_witness :
    ((annotate
        (splitNl "DB_HOST=localhost\nDB_PASSWORD=change-me\nDEBUG=true".data)
        1)[1]? =
      some ("DB_PASSWORD".data ++ ['='] ++
        tabStopAnnot
          (1 + ((splitNl
              "DB_HOST=localhost\nDB_PASSWORD=change-me\nDEBUG=true".data).take
                1).countP isPlaceholderLine)
          "change-me".data))
  ∧ ((annotate
        (splitNl "DB_HOST=localhost\nDB_PASSWORD=change-me\nDEBUG=true".data)
        1)[0]? = some "DB_HOST=localhost".data) :=
  ⟨(tab_stop_monotonicity
      "DB_HOST=localhost\nDB_PASSWORD=change-me\nDEBUG=true".data).2.2.2.2
      1 "DB_PASSWORD=change-me".data "DB_PASSWORD".data "change-me".data
      (by decide) (by decide) (by decide),
   (tab_stop_monotonicity
      "DB_HOST=localhost\nDB_PASSWORD=change-me\nDEBUG=true".data).2.2.2.1
      0 "DB_HOST=localhost".data (by decide) (by decide)⟩

theorem processLinesAux_no_placeholder (lines : List (List Char))
    (idx pos : Nat) (ht : Bool) (fvp : Option Nat)
    (h : ∀ l ∈ lines, isPlaceholderLine l = false) :
    processLinesAux lines idx pos ht fvp = (lines, ht, fvp) := by
  induction lines generalizing idx pos with
  | nil => rfl
  | cons line rest ih =>
    have hline : isPlaceholderLine line = false := h line (by simp)
    have hrest : ∀ l ∈ rest, isPlaceholderLine l = false :=
      fun l hl => h l (by simp [hl])
    simp only [isPlaceholderLine] at hline
    simp only [processLinesAux]
    cases hm : matchEnvVar line with
    | none => simp [ih _ _ hrest]
    | some kv =>
      obtain ⟨key, value⟩ := kv
      rw [hm] at hline
      have hv : isPlaceholderValue value = false := hline
      simp [hv, ih _ _ hrest]

/-- C10: on a template with no placeholder line the processor is the
identity — the annotated snippet equals the original text, no tab stop is
reported, and the first-value position is null. -/
theorem no_placeholder_is_identity (s : List Char)
    (h : ∀ l ∈ splitNl s, isPlaceholderLine l = false) :
    (processTemplateContent s).snippetContent = s
  ∧ (processTemplateContent s).hasTabStops = false
  ∧ (processTemplateContent s).firstValuePosition = none := by
  have hp := processLinesAux_no_placeholder (splitNl s) 1 0 false none h
  refine ⟨?_, ?_, ?_⟩
  · show joinNl (processLinesAux (splitNl s) 1 0 false none).1 = s
    rw [hp]
    exact joinNl_splitNl s
  · show (processLinesAux (splitNl s) 1 0 false none).2.1 = false
    rw [hp]
  · show (processLinesAux (splitNl s) 1 0 false none).2.2 = none
    rw [hp]

/-- Witness for C10 on a template whose two lines are a non-placeholder
assignment and a passthrough comment. -/
theorem no_placeholder_is_identity_witness :
    (processTemplateContent "PORT=8080\n# comment".data).snippetContent =
        "PORT=8080\n# comment".data
  ∧ (processTemplateContent "PORT=8080\n# comment".data).hasTabStops = false
  ∧ (processTemplateContent "PORT=8080\n# comment".data).firstValuePosition =
        none :=
  no_placeholder_is_identity "PORT=8080\n# comment".data (by decide)

theorem processLinesAux_fvp_of_found (lines : List (List Char))
    (idx pos : Nat) (fvp : Option Nat) :
    (processLinesAux lines idx pos true fvp).2.2 = fvp := by
  induction lines generalizing idx pos with
  | nil => rfl
  | cons line rest ih =>
    simp only [processLinesAux]
    cases hm : matchEnvVar line with
    | none => simp [ih]
    | some kv =>
      obtain ⟨key, value⟩ := kv
      by_cases hv : isPlaceholderValue value = true
      · simp [hv, ih]
      · simp only [Bool.not_eq_true] at hv
        simp [hv, ih]

/-- Modelled from the amended claim: the first-value position is the sum
of the lengths (plus one newline each) of the lines preceding the first
placeholder line, plus the length of the key, plus one for the `=` sign;
null when no placeholder line exists. -/
def amendedFirstValuePos : List (List Char) → Nat → Option Nat
  | [], _ => none
  | line :: rest, pos =>
    match matchEnvVar line with
    | some (key, value) =>
      if isPlaceholderValue value then some (pos + key.length + 1)
      else amendedFirstValuePos rest (pos + line.length + 1)
    | none => amendedFirstValuePos rest (pos + line.length + 1)

theorem processLinesAux_fvp (lines : List (List Char)) (idx pos : Nat) :
    (processLinesAux lines idx pos false none).2.2 =
      amendedFirstValuePos lines pos := by
  induction lines generalizing idx pos with
  | nil => rfl
  | cons line rest ih =>
    simp only [processLinesAux, amendedFirstValuePos]
    cases hm : matchEnvVar line with
    | none => simp [ih]
    | some kv =>
      obtain ⟨key, value⟩ := kv
      by_cases hv : isPlaceholderValue value = true
      · simp only [hv, if_true]
        rw [processLinesAux_fvp_of_found]
        simp [Nat.add_assoc]
      · simp only [Bool.not_eq_true] at hv
        simp [hv, ih]

/-- Modelled from the claim's words (the unamended C4): the character
offset, within the original text, of the position immediately following
the key and the `=` sign of the first placeholder line — i.e. one past
the `=` character, which sits after the key and any whitespace between
the key and the `=`. -/
def claimedFirstValuePos : List (List Char) → Nat → Option Nat
  | [], _ => none
  | line :: rest, pos =>
    match matchEnvVar line with
    | some (key, value) =>
      if isPlaceholderValue value then
        some (pos + key.length +
          ((line.drop key.length).takeWhile isJsSpace).length + 1)
      else claimedFirstValuePos rest (pos + line.length + 1)
    | none => claimedFirstValuePos rest (pos + line.length + 1)

/-- Counterexample to C4 as stated: on the template `A = your-` the first
placeholder line has a space between the key and the `=`, so the offset
immediately following the key and `=` sign is 3, while the code returns
`key.length + 1 = 2`. -/
theorem first_value_position_counterexample :
    (processTemplateContent "A = your-".data).firstValuePosition ≠
      claimedFirstValuePos (splitNl "A = your-".data) 0 := by decide

/-- C4 (amended): the returned first-value position is the offset of the
first placeholder line (counting each preceding line's length plus one
newline) plus the key length plus one for the `=` sign — the position
immediately following the key and `=` only when no whitespace precedes
the `=` — and is null when no placeholder line exists. -/
theorem first_value_position_amended (s : List Char) :
    (processTemplateContent s).firstValuePosition =
      amendedFirstValuePos (splitNl s) 0
  ∧ ((∀ l ∈ splitNl s, isPlaceholderLine l = false) →
      (processTemplateContent s).firstValuePosition = none) := by
  constructor
  · exact processLinesAux_fvp (splitNl s) 1 0
  · intro h
    show (processLinesAux (splitNl s) 1 0 false none).2.2 = none
    rw [processLinesAux_no_placeholder (splitNl s) 1 0 false none h]

/-- Witness for C4 (amended): on `DB_HOST=localhost\nDB_PASSWORD=change-me`
the position is 18 + 11 + 1 = 30, and on the placeholder-free `PORT=8080`
it is null. -/
theorem first_value_position_amended_witness :
    (processTemplateContent
        "DB_HOST=localhost\nDB_PASSWORD=change-me".data).firstValuePosition =
      amendedFirstValuePos
        (splitNl "DB_HOST=localhost\nDB_PASSWORD=change-me".data) 0
  ∧ (processTemplateContent "PORT=8080".data).firstValuePosition = none :=
  ⟨(first_value_position_amended
      "DB_HOST=localhost\nDB_PASSWORD=change-me".data).1,
   (first_value_position_amended "PORT=8080".data).2 (by decide)⟩

/-- JavaScript `line.trim()`: strips leading and trailing whitespace. -/
def trimJs (s : List Char) : List Char :=
  ((s.dropWhile isJsSpace).reverse.dropWhile isJsSpace).reverse

/-- JavaScript `content.endsWith('\n')` (false on the empty string). -/
def endsWithNl (s : List Char) : Bool :=
  match s.getLast? with
  | some c => c == '\n'
  | none => false

/-- The `lines.some(...)` check of `checkGitignore`: some line of the
ignore file, once trimmed, equals `.env`, `/.env` or `*.env`. -/
def hasEnvEntry (gitignoreContent : List Char) : Bool :=
  (splitNl gitignoreContent).any fun line =>
    trimJs line == ".env".data ||
    trimJs line == "/.env".data ||
    trimJs line == "*.env".data

/-- The user's reply to the confirmation prompt; dismissing the prompt
behaves like answering `No` (the code only acts on the literal `Yes`). -/
inductive PromptAnswer where
  | yes
  | no

/-- `checkGitignore` from `src/extension.ts`, modelled as a pure function
from the present ignore-file content (`none` when the file is absent,
treated as empty) and the user's answer to the written content (`none`
when nothing is written). -/
def checkGitignore (existing : Option (List Char)) (answer : PromptAnswer) :
    Option (List Char) :=
  let gitignoreContent := existing.getD []
  if hasEnvEntry gitignoreContent then none
  else
    match answer with
    | PromptAnswer.yes =>
      some (gitignoreContent ++
        (if endsWithNl gitignoreContent then [] else ['\n']) ++
        ".env\n".data)
    | PromptAnswer.no => none

/-- C5: the target entry is detected as present exactly when some line of
the ignore file, trimmed of surrounding whitespace, equals `.env`,
`/.env` or `*.env`; when it is present nothing is written regardless of
the user's answer; and an absent file behaves as empty content. -/
theorem gitignore_detection (content : List Char) :
    (hasEnvEntry content = true ↔
      ∃ line ∈ splitNl content,
        trimJs line = ".env".data ∨ trimJs line = "/.env".data ∨
        trimJs line = "*.env".data)
  ∧ (hasEnvEntry content = true →
      ∀ a, checkGitignore (some content) a = none)
  ∧ (∀ a, checkGitignore none a = checkGitignore (some []) a) := by
  refine ⟨?_, ?_, fun a => rfl⟩
  · simp [hasEnvEntry, List.any_eq_true, or_assoc]
  · intro h a
    simp [checkGitignore, h]

/-- Witness for C5: a file whose single line is `/.env` surrounded by
whitespace is detected, and no append occurs on either answer. -/
theorem gitignore_detection_witness :
    checkGitignore (some "  /.env\t".data) PromptAnswer.yes = none :=
  (gitignore_detection "  /.env\t".data).2.1 (by decide) PromptAnswer.yes

/-- C6: when the entry is appended, the new content is the prior content,
then a newline exactly when the prior content did not already end in one,
then `.env` on its own line; the prior content is preserved verbatim as a
prefix (so no existing line is removed, changed or reordered), everything
before the appended entry ends in a newline (so the entry never runs on
with the previous final line), and answering `No` writes nothing. -/
theorem gitignore_append_safety (prior : List Char)
    (h : hasEnvEntry prior = false) :
    ∃ pad, (if endsWithNl prior = true then pad = ([] : List Char)
            else pad = ['\n'])
  ∧ checkGitignore (some prior) PromptAnswer.yes =
      some (prior ++ pad ++ ".env\n".data)
  ∧ endsWithNl (prior ++ pad ++ ".env\n".data) = true
  ∧ (prior ++ pad = [] ∨ (prior ++ pad).getLast? = some '\n')
  ∧ checkGitignore (some prior) PromptAnswer.no = none := by
  by_cases he : endsWithNl prior = true
  · refine ⟨[], by simp [he], ?_, ?_, ?_, ?_⟩
    · simp [checkGitignore, h, he]
    · simp [endsWithNl, List.getLast?_append]
    · right
      simp only [List.append_nil]
      simp only [endsWithNl] at he
      cases hg : prior.getLast? with
      | none => rw [hg] at he; simp at he
      | some c =>
        rw [hg] at he
        simp only [beq_iff_eq] at he
        rw [he]
    · simp [checkGitignore, h]
  · simp only [Bool.not_eq_true] at he
    refine ⟨['\n'], by simp [he], ?_, ?_, ?_, ?_⟩
    · simp [checkGitignore, h, he]
    · simp [endsWithNl, List.getLast?_append]
    · right
      simp [List.getLast?_append]
    · simp [checkGitignore, h]

/-- Witness for C6 on a prior file `node_modules` lacking a trailing
newline: the appended entry starts on its own line. -/
theorem gitignore_append_safety_witness :
    checkGitignore (some "node_modules".data) PromptAnswer.yes =
      some ("node_modules".data ++ ['\n'] ++ ".env\n".data) := by
  obtain ⟨pad, hpad, happ, -, -, -⟩ :=
    gitignore_append_safety "node_modules".data (by decide)
  have hp : pad = ['\n'] := by simpa using hpad
  rw [happ, hp]

/-- A directory listing as traversed by `findTemplateFiles`: a sequence
of entries, each either a regular file with a base name, or a directory
with a base name, a flag saying whether `readdirSync` succeeds on it, and
its own listing. -/
inductive FsListing : Type where
  | nil : FsListing
  | file : (name : List Char) → (rest : FsListing) → FsListing
  | dir : (name : List Char) → (readable : Bool) → (sub : FsListing) →
      (rest : FsListing) → FsListing
deriving DecidableEq

/-- The fixed allow-list of recognized template base names. -/
def templatePatterns : List (List Char) :=
  [".env.example".data, ".env.template".data, ".env.sample".data,
   ".env.dist".data]

/-- JavaScript `file.startsWith('.')`. -/
def startsWithDot : List Char → Bool
  | [] => false
  | c :: _ => c == '.'

/-- The inner `searchDirectory` of `findTemplateFiles`: walk the listing
entry by entry; recurse into directories whose name is not hidden and not
`node_modules` (an unreadable one throws inside its own try/catch and
contributes nothing), and record files whose base name is allow-listed.
Returned paths are component lists relative to the root. -/
def searchDirectory : FsListing → List (List (List Char))
  | FsListing.nil => []
  | FsListing.file name rest =>
    (if templatePatterns.contains name then [[name]] else []) ++
      searchDirectory rest
  | FsListing.dir name readable sub rest =>
    (if startsWithDot name = false ∧ name ≠ "node_modules".data then
       (if readable then (searchDirectory sub).map (fun p => name :: p)
        else [])
     else []) ++ searchDirectory rest

/-- `findTemplateFiles` applied to the listing of the workspace root. -/
def findTemplateFiles (root : FsListing) : List (List (List Char)) :=
  searchDirectory root

/-- Every directory of the tree is readable (the failure-free case). -/
def allReadable : FsListing → Bool
  | FsListing.nil => true
  | FsListing.file _ rest => allReadable rest
  | FsListing.dir _ r sub rest => r && allReadable sub && allReadable rest

/-- The base names of a listing's top-level entries. -/
def namesOf : FsListing → List (List Char)
  | FsListing.nil => []
  | FsListing.file n rest => n :: namesOf rest
  | FsListing.dir n _ _ rest => n :: namesOf rest

/-- Within every directory of the tree, entry names are pairwise
distinct — as on a real file system. -/
def uniqueNames : FsListing → Bool
  | FsListing.nil => true
  | FsListing.file n rest => !(namesOf rest).contains n && uniqueNames rest
  | FsListing.dir n _ sub rest =>
    !(namesOf rest).contains n && uniqueNames sub && uniqueNames rest

/-- Modelled from the spec: a relative path reaches a template file when
it descends only through directories whose names are not hidden and not
`node_modules`, and ends at a file whose base name is allow-listed. -/
inductive ReachesTemplate : FsListing → List (List Char) → Prop where
  | found (name : List Char) (rest : FsListing)
      (hpat : name ∈ templatePatterns) :
      ReachesTemplate (FsListing.file name rest) [name]
  | skip_file (name : List Char) (rest : FsListing) (p : List (List Char))
      (hrest : ReachesTemplate rest p) :
      ReachesTemplate (FsListing.file name rest) p
  | descend (name : List Char) (b : Bool) (sub rest : FsListing)
      (p : List (List Char))
      (hdot : startsWithDot name = false)
      (hnm : name ≠ "node_modules".data)
      (hsub : ReachesTemplate sub p) :
      ReachesTemplate (FsListing.dir name b sub rest) (name :: p)
  | skip_dir (name : List Char) (b : Bool) (sub rest : FsListing)
      (p : List (List Char)) (hrest : ReachesTemplate rest p) :
      ReachesTemplate (FsListing.dir name b sub rest) p

theorem reaches_of_mem_searchDirectory (l : FsListing)
    (p : List (List Char)) (hp : p ∈ searchDirectory l) :
    ReachesTemplate l p := by
  induction l generalizing p with
  | nil => simp [searchDirectory] at hp
  | file n rest ih =>
    simp only [searchDirectory] at hp
    rcases List.mem_append.mp hp with hl | hr
    · by_cases hc : templatePatterns.contains n = true
      · rw [if_pos hc] at hl
        simp only [List.mem_singleton] at hl
        subst hl
        exact ReachesTemplate.found n rest (List.elem_iff.mp hc)
      · rw [if_neg hc] at hl
        simp at hl
    · exact ReachesTemplate.skip_file n rest p (ih _ hr)
  | dir n r sub rest ihsub ihrest =>
    simp only [searchDirectory] at hp
    rcases List.mem_append.mp hp with hl | hr
    · by_cases hcond : startsWithDot n = false ∧ n ≠ "node_modules".data
      · rw [if_pos hcond] at hl
        cases r with
        | false => simp at hl
        | true =>
          rw [if_pos rfl] at hl
          obtain ⟨q, hq, rfl⟩ := List.mem_map.mp hl
          exact ReachesTemplate.descend n true sub rest q hcond.1 hcond.2
            (ihsub _ hq)
      · rw [if_neg hcond] at hl
        simp at hl
    · exact ReachesTemplate.skip_dir n r sub rest p (ihrest _ hr)

theorem mem_searchDirectory_of_reaches (l : FsListing)
    (p : List (List Char)) (h : ReachesTemplate l p) :
    allReadable l = true → p ∈ searchDirectory l := by
  induction h with
  | found name rest hpat =>
    intro _
    have hc : templatePatterns.contains name = true := List.elem_iff.mpr hpat
    simp only [searchDirectory, hc, if_true]
    exact List.mem_append_left _ (by simp)
  | skip_file name rest p hrest ih =>
    intro hr
    simp only [allReadable] at hr
    simp only [searchDirectory]
    exact List.mem_append_right _ (ih hr)
  | descend name b sub rest p hdot hnm hsub ih =>
    intro hr
    simp only [allReadable, Bool.and_eq_true] at hr
    obtain ⟨⟨hb, hsubr⟩, -⟩ := hr
    subst hb
    simp only [searchDirectory, if_pos (And.intro hdot hnm), if_pos rfl]
    exact List.mem_append_left _ (List.mem_map_of_mem _ (ih hsubr))
  | skip_dir name b sub rest p hrest ih =>
    intro hr
    simp only [allReadable, Bool.and_eq_true] at hr
    simp only [searchDirectory]
    exact List.mem_append_right _ (ih hr.2)

theorem head_mem_namesOf (l : FsListing) (p : List (List Char))
    (hp : p ∈ searchDirectory l) :
    ∃ n q, p = n :: q ∧ n ∈ namesOf l := by
  induction l generalizing p with
  | nil => simp [searchDirectory] at hp
  | file n rest ih =>
    simp only [searchDirectory] at hp
    rcases List.mem_append.mp hp with hl | hr
    · by_cases hc : templatePatterns.contains n = true
      · rw [if_pos hc] at hl
        simp only [List.mem_singleton] at hl
        subst hl
        exact ⟨n, [], rfl, by simp [namesOf]⟩
      · rw [if_neg hc] at hl
        simp at hl
    · obtain ⟨m, q, rfl, hm⟩ := ih _ hr
      exact ⟨m, q, rfl, by simp [namesOf, hm]⟩
  | dir n r sub rest ihsub ihrest =>
    simp only [searchDirectory] at hp
    rcases List.mem_append.mp hp with hl | hr
    · by_cases hcond : startsWithDot n = false ∧ n ≠ "node_modules".data
      · rw [if_pos hcond] at hl
        cases r with
        | false => simp at hl
        | true =>
          rw [if_pos rfl] at hl
          obtain ⟨q, hq, rfl⟩ := List.mem_map.mp hl
          exact ⟨n, q, rfl, by simp [namesOf]⟩
      · rw [if_neg hcond] at hl
        simp at hl
    · obtain ⟨m, q, rfl, hm⟩ := ihrest _ hr
      exact ⟨m, q, rfl, by simp [namesOf, hm]⟩

theorem searchDirectory_nodup (l : FsListing)
    (hu : uniqueNames l = true) : (searchDirectory l).Nodup := by
  induction l with
  | nil => simp [searchDirectory]
  | file n rest ih =>
    simp only [uniqueNames, Bool.and_eq_true, Bool.not_eq_true'] at hu
    obtain ⟨hn, hu2⟩ := hu
    simp only [searchDirectory]
    rw [List.nodup_append]
    refine ⟨?_, ih hu2, ?_⟩
    · by_cases hc : templatePatterns.contains n = true
      · rw [if_pos hc]; simp
      · rw [if_neg hc]; simp
    · intro x hx1 hx2
      have hx : x = [n] := by
        by_cases hc : templatePatterns.contains n = true
        · rw [if_pos hc] at hx1; simpa using hx1
        · rw [if_neg hc] at hx1; simp at hx1
      subst hx
      obtain ⟨m, q, hmq, hm⟩ := head_mem_namesOf rest _ hx2
      have : m = n ∧ q = [] := by
        constructor <;> · injection hmq with h1 h2; simp [h1.symm, h2.symm]
      rw [this.1] at hm
      rw [← List.elem_iff] at hm
      rw [List.contains] at hn
      rw [hm] at hn
      simp at hn
  | dir n r sub rest ihsub ihrest =>
    simp only [uniqueNames, Bool.and_eq_true, Bool.not_eq_true'] at hu
    obtain ⟨⟨hn, husub⟩, hu2⟩ := hu
    simp only [searchDirectory]
    rw [List.nodup_append]
    refine ⟨?_, ihrest hu2, ?_⟩
    · by_cases hcond : startsWithDot n = false ∧ n ≠ "node_modules".data
      · rw [if_pos hcond]
        cases r with
        | false => simp
        | true =>
          rw [if_pos rfl]
          exact (ihsub husub).map (fun a b hab => by simpa using hab)
      · rw [if_neg hcond]; simp
    · intro x hx1 hx2
      have hx : ∃ q, x = n :: q := by
        by_cases hcond : startsWithDot n = false ∧ n ≠ "node_modules".data
        · rw [if_pos hcond] at hx1
          cases r with
          | false => simp at hx1
          | true =>
            rw [if_pos rfl] at hx1
            obtain ⟨q, -, rfl⟩ := List.mem_map.mp hx1
            exact ⟨q, rfl⟩
        · rw [if_neg hcond] at hx1; simp at hx1
      obtain ⟨q, rfl⟩ := hx
      obtain ⟨m, q2, hmq, hm⟩ := head_mem_namesOf rest _ hx2
      have hmn : m = n := by injection hmq with h1 h2; exact h1.symm
      rw [hmn] at hm
      rw [← List.elem_iff] at hm
      rw [List.contains] at hn
      rw [hm] at hn
      simp at hn

/-- C7: over a failure-free directory tree, a path is returned by the
template locator exactly when it reaches a file with an allow-listed base
name without passing through a hidden directory or `node_modules` (so in
particular no file with any other base name is ever returned); and when
directory entry names are unique — as on a real file system — the result
list has no duplicates, so each such file is found exactly once. -/
theorem template_discovery (root : FsListing)
    (hr : allReadable root = true) :
    (∀ p, p ∈ findTemplateFiles root ↔ ReachesTemplate root p)
  ∧ (uniqueNames root = true → (findTemplateFiles root).Nodup) :=
  ⟨fun p =>
    ⟨fun hp => reaches_of_mem_searchDirectory root p hp,
     fun h => mem_searchDirectory_of_reaches root p h hr⟩,
   fun hu => searchDirectory_nodup root hu⟩

/-- A small concrete tree: a template at the root, one in a regular
subdirectory, one hidden inside `.git`, one inside `node_modules`, and a
non-template file. -/
def sampleTree : FsListing :=
  FsListing.file ".env.example".data
    (FsListing.dir "server".data true
      (FsListing.file ".env.sample".data FsListing.nil)
      (FsListing.dir ".git".data true
        (FsListing.file ".env.example".data FsListing.nil)
        (FsListing.dir "node_modules".data true
          (FsListing.file ".env.dist".data FsListing.nil)
          (FsListing.file "README.md".data FsListing.nil))))

/-- Witness for C7 on `sampleTree`: the template inside the `server`
directory is reachable (via the returned paths), and the result list is
duplicate-free. -/
theorem template_discovery_witness :
    ReachesTemplate sampleTree ["server".data, ".env.sample".data]
  ∧ (findTemplateFiles sampleTree).Nodup :=
  ⟨((template_discovery sampleTree (by decide)).1
      ["server".data, ".env.sample".data]).mp (by decide),
   (template_discovery sampleTree (by decide)).2 (by decide)⟩

/-- The listing with every unreadable directory entry removed. -/
def pruneUnreadable : FsListing → FsListing
  | FsListing.nil => FsListing.nil
  | FsListing.file n rest => FsListing.file n (pruneUnreadable rest)
  | FsListing.dir n true sub rest =>
    FsListing.dir n true (pruneUnreadable sub) (pruneUnreadable rest)
  | FsListing.dir _ false _ rest => pruneUnreadable rest

/-- Concatenation of two directory listings. -/
def appendListing : FsListing → FsListing → FsListing
  | FsListing.nil, b => b
  | FsListing.file n rest, b => FsListing.file n (appendListing rest b)
  | FsListing.dir n r sub rest, b =>
    FsListing.dir n r sub (appendListing rest b)

theorem searchDirectory_appendListing (a b : FsListing) :
    searchDirectory (appendListing a b) =
      searchDirectory a ++ searchDirectory b := by
  induction a with
  | nil => simp [appendListing, searchDirectory]
  | file n rest ih => simp [appendListing, searchDirectory, ih]
  | dir n r sub rest ihsub ihrest =>
    simp [appendListing, searchDirectory, ihrest]

/-- C8: the template locator is a total function of the tree (no error
ever propagates to its caller); its result on any tree equals its result
on the tree with every unreadable directory removed — each unreadable
directory is silently skipped, contributing nothing — and an unreadable
directory placed among arbitrary siblings leaves exactly the siblings'
matches, so the traversal continues with them. -/
theorem unreadable_directories_skipped :
    (∀ l, searchDirectory l = searchDirectory (pruneUnreadable l))
  ∧ (∀ (before after : FsListing) (name : List Char) (sub : FsListing),
      searchDirectory
          (appendListing before (FsListing.dir name false sub after)) =
        searchDirectory before ++ searchDirectory after) := by
  constructor
  · intro l
    induction l with
    | nil => rfl
    | file n rest ih => simp [searchDirectory, pruneUnreadable, ih]
    | dir n r sub rest ihsub ihrest =>
      cases r with
      | true => simp [searchDirectory, pruneUnreadable, ihsub, ihrest]
      | false => simp [searchDirectory, pruneUnreadable, ihrest]
  · intro before after name sub
    rw [searchDirectory_appendListing]
    simp [searchDirectory]

/-- The user's choice at the existing-target warning prompt; `dismissed`
is the prompt being closed without a choice (the code treats anything
other than the two named buttons like `Cancel`). -/
inductive ExistsChoice where
  | openExisting
  | overwrite
  | cancel
  | dismissed
deriving DecidableEq

/-- The file writes performed by one run of the command: the content
written to the target `.env` file, and the content written to the
`.gitignore` file (`none` = the file is not touched). -/
structure Effects where
  envWrite : Option (List Char)
  gitignoreWrite : Option (List Char)
deriving DecidableEq

/-- The command flow of `activate` in `src/extension.ts`, modelled as a
pure function from the located templates, the user's quick-pick selection
(`none` = dismissed; only consulted when more than one template exists),
whether the target `.env` already exists, the user's choice at the
existing-target prompt, the selected template's content, the present
ignore-file content and the user's answer to the ignore prompt, to the
file writes performed. Opening a document on screen is not a write. -/
def runCreateEnv (templates : List (List (List Char))) (pick : Option Nat)
    (envExists : Bool) (choice : ExistsChoice)
    (templateContent : List Char) (gitignore : Option (List Char))
    (gitignoreAnswer : PromptAnswer) : Effects :=
  if templates.length = 0 then ⟨none, none⟩
  else
    let selected : Option (List (List Char)) :=
      if templates.length = 1 then some (templates.headD [])
      else
        match pick with
        | none => none
        | some i => some (templates.getD i [])
    match selected with
    | none => ⟨none, none⟩
    | some _ =>
      let proceed : Effects :=
        ⟨some (processTemplateContent templateContent).content,
         checkGitignore gitignore gitignoreAnswer⟩
      if envExists then
        match choice with
        | ExistsChoice.openExisting => ⟨none, none⟩
        | ExistsChoice.overwrite => proceed
        | ExistsChoice.cancel => ⟨none, none⟩
        | ExistsChoice.dismissed => ⟨none, none⟩
      else proceed

/-- C9: every user-cancellation path of the command is side-effect-free —
dismissing the multi-template quick-pick, choosing `Cancel` at the
existing-target prompt or dismissing it, and choosing to open the
existing file all end the run with no write to the target file and no
write to the ignore file. -/
theorem cancellation_paths_side_effect_free
    (templates : List (List (List Char))) (pick : Option Nat)
    (envExists : Bool) (choice : ExistsChoice) (tc : List Char)
    (gi : Option (List Char)) (ans : PromptAnswer) :
    (1 < templates.length → pick = none →
      runCreateEnv templates pick envExists choice tc gi ans = ⟨none, none⟩)
  ∧ (envExists = true →
      (choice = ExistsChoice.cancel ∨ choice = ExistsChoice.dismissed ∨
       choice = ExistsChoice.openExisting) →
      runCreateEnv templates pick envExists choice tc gi ans =
        ⟨none, none⟩) := by
  constructor
  · intro hlen hpick
    subst hpick
    have h0 : ¬ templates.length = 0 := by omega
    have h1 : ¬ templates.length = 1 := by omega
    simp [runCreateEnv, h0, h1]
  · intro hex hchoice
    subst hex
    by_cases h0 : templates.length = 0
    · simp [runCreateEnv, h0]
    · by_cases h1 : templates.length = 1
      · rcases hchoice with rfl | rfl | rfl <;> simp [runCreateEnv, h0, h1]
      · cases pick with
        | none => simp [runCreateEnv, h0, h1]
        | some i =>
          rcases hchoice with rfl | rfl | rfl <;>
            simp [runCreateEnv, h0, h1]

/-- Witness for C9: with two templates and the quick-pick dismissed
nothing is written, and with an existing target and `Cancel` chosen
nothing is written. -/
theorem cancellation_paths_side_effect_free_witness :
    runCreateEnv [[".env.example".data], [".env.sample".data]] none false
        ExistsChoice.overwrite "A=1".data none PromptAnswer.yes =
      ⟨none, none⟩
  ∧ runCreateEnv [[".env.example".data]] none true ExistsChoice.cancel
        "A=1".data none PromptAnswer.yes = ⟨none, none⟩ :=
  ⟨(cancellation_paths_side_effect_free
      [[".env.example".data], [".env.sample".data]] none false
      ExistsChoice.overwrite "A=1".data none PromptAnswer.yes).1
      (by decide) rfl,
   (cancellation_paths_side_effect_free [[".env.example".data]] none true
      ExistsChoice.cancel "A=1".data none PromptAnswer.yes).2 rfl
      (Or.inl rfl)⟩
